import Mathlib

/-!
# Verification of the quantstats-js parity scripts

Shallow embedding of the statistics pipeline found in the repository's
Python scripts (`debug_psr.py`, `verify_python_serenity.py`,
`debug_python_direct.py`, `verify_std_method.py`).

Return series are modelled as `List ℚ`; every quantity the scripts compute
exactly (means, drawdowns, quantiles, CVaR) stays in `ℚ`, while quantities
involving `sqrt`, `exp` or `π` (standard deviation, Sharpe, Ulcer index,
PSR pieces) live in `ℝ`.

All definitions are translated from the Python source.  Definitions whose
name ends in `_spec` or `_claim` restate the wording of the natural-language
specification and are compared with the source-derived definitions.
-/

/-- Arithmetic mean of a series: `np.mean` / pandas `Series.mean`. -/
def listMean (s : List ℚ) : ℚ := s.sum / s.length

/-- Plain sum of a series: `np.sum` / pandas `Series.sum`. -/
def listSum (s : List ℚ) : ℚ := s.sum

/-- Sum of squared deviations from the mean, the shared numerator of every
`np.std` / pandas `Series.std` call in the scripts. -/
def sumSqDev (s : List ℚ) : ℚ := (s.map (fun x => (x - listMean s)^2)).sum

/-- `np.std(s, ddof)` / pandas `Series.std(ddof)`:
`sqrt( Σ (x - mean)² / (n - ddof) )`.  The scripts always call it with
`ddof = 1` (sample standard deviation); pandas' default is also `ddof = 1`. -/
noncomputable def np_std (ddof : ℕ) (s : List ℚ) : ℝ :=
  Real.sqrt ((sumSqDev s : ℝ) / ((s.length : ℝ) - (ddof : ℝ)))

/-- `sharpe_simple` from `debug_psr.py`:
`np.mean(returns) / np.std(returns, ddof=1) * np.sqrt(252)`. -/
noncomputable def sharpe_simple (s : List ℚ) : ℝ :=
  (listMean s : ℝ) / np_std 1 s * Real.sqrt 252

/-- The Sharpe formula as worded by the spec: mean over the Bessel-corrected
sample standard deviation `sqrt(Σ(x-mean)²/(n-1))`, times
`sqrt(annualization_factor)`. -/
noncomputable def sharpe_spec (s : List ℚ) (annualization_factor : ℝ) : ℝ :=
  (listMean s : ℝ) / Real.sqrt ((sumSqDev s : ℝ) / ((s.length : ℝ) - 1)) *
    Real.sqrt annualization_factor

/-- `skew_simple` from `debug_psr.py`:
`(n / ((n-1)(n-2))) · Σ ((x - mean)/std)³` with the sample std. -/
noncomputable def skew_simple (s : List ℚ) : ℝ :=
  let n : ℝ := s.length
  (n / ((n - 1) * (n - 2))) *
    ((s.map (fun x => (((x : ℝ) - (listMean s : ℝ)) / np_std 1 s)^3)).sum)

/-- `kurtosis_simple` from `debug_psr.py` — the sample *excess* kurtosis:
`(n(n+1) / ((n-1)(n-2)(n-3))) · Σ ((x - mean)/std)⁴ − 3(n-1)²/((n-2)(n-3))`. -/
noncomputable def kurtosis_simple (s : List ℚ) : ℝ :=
  let n : ℝ := s.length
  (n * (n + 1) / ((n - 1) * (n - 2) * (n - 3))) *
    ((s.map (fun x => (((x : ℝ) - (listMean s : ℝ)) / np_std 1 s)^4)).sum) -
    3 * (n - 1)^2 / ((n - 2) * (n - 3))

/-- `np.sign`. -/
noncomputable def np_sign (x : ℝ) : ℝ := if 0 < x then 1 else if x < 0 then -1 else 0

/-- `norm_cdf_simple` from `debug_psr.py`:
`0.5 * (1 + np.sign(x) * sqrt(1 - exp(-2 x² / π)))`. -/
noncomputable def norm_cdf_simple (x : ℝ) : ℝ :=
  0.5 * (1 + np_sign x * Real.sqrt (1 - Real.exp (-2 * x^2 / Real.pi)))

/-- Radicand numerator of the `sigma_sr` computed at `debug_psr.py:61-64`,
as a function of the Sharpe value, the skew and the (excess) kurtosis fed in:
`1 + 0.5·sr² − skew·sr + ((kurt − 3)/4)·sr²`.  Note the `− 3`. -/
noncomputable def psrQ (sr skew kurt : ℝ) : ℝ :=
  1 + 0.5 * sr^2 - skew * sr + ((kurt - 3) / 4) * sr^2

/-- `sigma_sr` as computed at `debug_psr.py:61-64`:
`sqrt((1 + 0.5·sr² − skew·sr + ((kurt − 3)/4)·sr²) / (n − 1))`, where the
script feeds `kurt = kurtosis_simple(returns)`, already an excess kurtosis. -/
noncomputable def sigma_sr (sr skew kurt : ℝ) (n : ℕ) : ℝ :=
  Real.sqrt (psrQ sr skew kurt / ((n : ℝ) - 1))

/-- The `sigma_sr` formula as worded by the spec and the claim: the excess
kurtosis enters directly as `(kurt/4)·sr²`, with no further `− 3`. -/
noncomputable def sigma_sr_claim (sr skew kurt : ℝ) (n : ℕ) : ℝ :=
  Real.sqrt ((1 + 0.5 * sr^2 - skew * sr + (kurt / 4) * sr^2) / ((n : ℝ) - 1))

/-- The PSR pipeline of `debug_psr.py:69-73` with skew, excess kurtosis and
`n` held fixed, as a function of the Sharpe value:
`ratio = sr / sigma_sr; psr = norm_cdf_simple(ratio)`. -/
noncomputable def psr_fixed (skew kurt : ℝ) (n : ℕ) (sr : ℝ) : ℝ :=
  norm_cdf_simple (sr / sigma_sr sr skew kurt n)

/-- Helper for the cumulative product: `cumprodFrom acc xs` is
`[acc·x₀, acc·x₀·x₁, …]`, i.e. pandas `cumprod` started from `acc`. -/
def cumprodFrom (acc : ℚ) : List ℚ → List ℚ
  | [] => []
  | x :: xs => (acc * x) :: cumprodFrom (acc * x) xs

/-- `prices = (1 + returns).cumprod()` from `to_drawdown_series` in
`verify_python_serenity.py`. -/
def pricesList (s : List ℚ) : List ℚ := cumprodFrom 1 (s.map (fun r => 1 + r))

/-- Helper for the running maximum: `runMaxFrom m xs` is the running maximum
of `xs` seeded with the already-seen maximum `m`. -/
def runMaxFrom (m : ℚ) : List ℚ → List ℚ
  | [] => []
  | x :: xs => max m x :: runMaxFrom (max m x) xs

/-- `prices.expanding().max()`: the running maximum of a series up to and
including each index.  There is no initial peak before the first element. -/
def runningMax : List ℚ → List ℚ
  | [] => []
  | x :: xs => x :: runMaxFrom x xs

/-- `to_drawdown_series` from `verify_python_serenity.py`:
`prices = (1+returns).cumprod(); cum_max = prices.expanding().max();
drawdowns = prices/cum_max - 1`. -/
def to_drawdown_series (s : List ℚ) : List ℚ :=
  List.zipWith (fun p m => p / m - 1) (pricesList s) (runningMax (pricesList s))

/-- The spec's closed form of the price index: the cumulative product of
`(1 + rᵢ)` up to and including index `i`. -/
def price_spec (s : List ℚ) (i : ℕ) : ℚ := ((s.take (i + 1)).map (fun r => 1 + r)).prod

/-- The spec's running maximum of the price index up to and including
index `i`. -/
def runmax_spec (s : List ℚ) : ℕ → ℚ
  | 0 => price_spec s 0
  | i + 1 => max (runmax_spec s i) (price_spec s (i + 1))

/-- Prefix maximum of a list: the maximum of the first `i+1` entries. -/
def maxUpTo (ps : List ℚ) : ℕ → ℚ
  | 0 => ps.getD 0 0
  | i + 1 => max (maxUpTo ps i) (ps.getD (i + 1) 0)

/-- Insertion into a sorted list (ascending), used to model the sorting
pandas performs inside `Series.quantile`. -/
def insertSorted (x : ℚ) : List ℚ → List ℚ
  | [] => [x]
  | y :: ys => if x ≤ y then x :: y :: ys else y :: insertSorted x ys

/-- Insertion sort (ascending). -/
def sortList : List ℚ → List ℚ
  | [] => []
  | x :: xs => insertSorted x (sortList xs)

/-- pandas `Series.quantile(q)` with the default linear interpolation
between order statistics: with the values sorted ascending and
`h = q·(n-1)`, the result is `sorted[⌊h⌋] + (h - ⌊h⌋)·(sorted[⌊h⌋+1] - sorted[⌊h⌋])`. -/
def quantile (s : List ℚ) (q : ℚ) : ℚ :=
  let sorted := sortList s
  let h : ℚ := q * ((s.length : ℚ) - 1)
  let lo : ℤ := Int.floor h
  let a := sorted.getD lo.toNat 0
  let b := sorted.getD (lo.toNat + 1) a
  a + (h - (lo : ℚ)) * (b - a)

/-- `cvar_quantile` from `verify_python_serenity.py`:
`var = series.quantile(1 - confidence); series[series <= var].mean()`. -/
def cvar_quantile (s : List ℚ) (confidence : ℚ) : ℚ :=
  let var := quantile s (1 - confidence)
  listMean (s.filter (fun x => x ≤ var))

/-- CVaR as worded by the spec: the mean of all series values less than or
equal to VaR (inclusive boundary), with VaR the `(1-c)`-quantile. -/
def cvar_spec (s : List ℚ) (c : ℚ) : ℚ :=
  listMean (s.filter (fun x => x ≤ quantile s (1 - c)))

/-- Modelled from the spec: `qs.stats.value_at_risk`, called by
`debug_python_direct.py` but not part of `src/`, is modelled by the spec's
TailRiskEngine contract — VaR is the `(1−c)`-quantile of the series. -/
def value_at_risk (s : List ℚ) (c : ℚ) : ℚ := quantile s (1 - c)

/-- The manual CVaR of `debug_python_direct.py:35-37`:
`below_var = dd[dd < var_val]; manual_cvar = below_var.mean()` — note the
*strict* `<` boundary, with `var_val` the VaR threshold. -/
def manual_cvar (s : List ℚ) (c : ℚ) : ℚ :=
  listMean (s.filter (fun x => x < value_at_risk s c))

/-- `ulcer_index` from `verify_python_serenity.py`:
`dd = to_drawdown_series(returns); sqrt((dd ** 2).mean())`. -/
noncomputable def ulcer_index (s : List ℚ) : ℝ :=
  Real.sqrt ((listMean ((to_drawdown_series s).map (fun d => d^2)) : ℚ) : ℝ)

/-- `pitfall` from `verify_python_serenity.py:40`:
`-cvar_dd / returns.std()` with `cvar_dd = cvar_quantile(dd, confidence)`. -/
noncomputable def pitfall (s : List ℚ) (confidence : ℚ) : ℝ :=
  -((cvar_quantile (to_drawdown_series s) confidence : ℚ) : ℝ) / np_std 1 s

/-- `serenity` from `verify_python_serenity.py:53`:
`(returns.sum() - 0) / (ulcer * pitfall)`. -/
noncomputable def serenity (s : List ℚ) (confidence : ℚ) : ℝ :=
  (((listSum s : ℚ) : ℝ) - 0) / (ulcer_index s * pitfall s confidence)

/-- The Serenity Index as worded by the spec:
`total_return / (ulcer_index · pitfall)` with
`pitfall = −CVaR(drawdowns, confidence) / sample_std(returns)` and
`total_return = sum(returns)` (the simple, non-compounded sum). -/
noncomputable def serenity_spec (s : List ℚ) (confidence : ℚ) : ℝ :=
  ((listSum s : ℚ) : ℝ) /
    (ulcer_index s *
      (-((cvar_spec (to_drawdown_series s) confidence : ℚ) : ℝ) /
        Real.sqrt ((sumSqDev s : ℝ) / ((s.length : ℝ) - 1))))

/-! ## Helper lemmas about the list-level machinery -/

theorem cumprodFrom_length (acc : ℚ) (xs : List ℚ) :
    (cumprodFrom acc xs).length = xs.length := by
  induction xs generalizing acc with
  | nil => rfl
  | cons x t ih => simp [cumprodFrom, ih]

theorem runMaxFrom_length (m : ℚ) (xs : List ℚ) :
    (runMaxFrom m xs).length = xs.length := by
  induction xs generalizing m with
  | nil => rfl
  | cons x t ih => simp [runMaxFrom, ih]

theorem runningMax_length (xs : List ℚ) : (runningMax xs).length = xs.length := by
  cases xs with
  | nil => rfl
  | cons x t => simp [runningMax, runMaxFrom_length]

theorem pricesList_length (s : List ℚ) : (pricesList s).length = s.length := by
  simp [pricesList, cumprodFrom_length]

theorem to_drawdown_series_length (s : List ℚ) :
    (to_drawdown_series s).length = s.length := by
  simp [to_drawdown_series, pricesList_length, runningMax_length]

theorem cumprodFrom_pos (xs : List ℚ) : ∀ acc : ℚ, 0 < acc → (∀ x ∈ xs, 0 < x) →
    ∀ p ∈ cumprodFrom acc xs, 0 < p := by
  induction xs with
  | nil => intro acc _ _ p hp; simp [cumprodFrom] at hp
  | cons x t ih =>
    intro acc hacc hx p hp
    have hax : 0 < acc * x := mul_pos hacc (hx x (by simp))
    rw [cumprodFrom] at hp
    rcases List.mem_cons.mp hp with rfl | hmem
    · exact hax
    · exact ih (acc * x) hax (fun q hq => hx q (by simp [hq])) p hmem

theorem zip_dd_nonpos (xs : List ℚ) : ∀ m : ℚ, 0 < m → (∀ p ∈ xs, 0 < p) →
    ∀ d ∈ List.zipWith (fun p q => p / q - 1) xs (runMaxFrom m xs), d ≤ 0 := by
  induction xs with
  | nil => intro m _ _ d hd; simp at hd
  | cons x t ih =>
    intro m hm hx d hd
    rw [runMaxFrom, List.zipWith_cons_cons] at hd
    rcases List.mem_cons.mp hd with rfl | hmem
    · have hmx : 0 < max m x := lt_of_lt_of_le hm (le_max_left m x)
      have hle : x / max m x ≤ 1 := (div_le_one hmx).mpr (le_max_right m x)
      linarith
    · exact ih (max m x) (lt_of_lt_of_le hm (le_max_left m x))
        (fun q hq => hx q (by simp [hq])) d hmem

theorem cumprodFrom_getD (xs : List ℚ) : ∀ (acc : ℚ) (i : ℕ), i < xs.length →
    (cumprodFrom acc xs).getD i 0 = acc * (xs.take (i + 1)).prod := by
  induction xs with
  | nil => intro acc i hi; simp at hi
  | cons x t ih =>
    intro acc i hi
    cases i with
    | zero => simp [cumprodFrom]
    | succ j =>
      have hj : j < t.length := by simpa using Nat.lt_of_succ_lt_succ hi
      rw [cumprodFrom, List.getD_cons_succ, ih (acc * x) j hj, List.take_succ_cons,
        List.prod_cons, mul_assoc]

theorem maxUpTo_cons (x : ℚ) (t : List ℚ) : ∀ j : ℕ, j < t.length →
    maxUpTo (x :: t) (j + 1) = max x (maxUpTo t j) := by
  intro j
  induction j with
  | zero => intro _; simp [maxUpTo]
  | succ k ih =>
    intro hk
    have hk' : k < t.length := Nat.lt_of_succ_lt hk
    rw [maxUpTo, ih hk', List.getD_cons_succ]
    rw [show maxUpTo t (k + 1) = max (maxUpTo t k) (t.getD (k + 1) 0) from rfl, max_assoc]

theorem runMaxFrom_getD (xs : List ℚ) : ∀ (m : ℚ) (i : ℕ), i < xs.length →
    (runMaxFrom m xs).getD i 0 = max m (maxUpTo xs i) := by
  induction xs with
  | nil => intro m i hi; simp at hi
  | cons x t ih =>
    intro m i hi
    cases i with
    | zero => simp [runMaxFrom, maxUpTo]
    | succ j =>
      have hj : j < t.length := by simpa using Nat.lt_of_succ_lt_succ hi
      rw [runMaxFrom, List.getD_cons_succ, ih (max m x) j hj, maxUpTo_cons x t j hj,
        max_assoc]

theorem runningMax_getD (ps : List ℚ) : ∀ i : ℕ, i < ps.length →
    (runningMax ps).getD i 0 = maxUpTo ps i := by
  cases ps with
  | nil => intro i hi; simp at hi
  | cons x t =>
    intro i hi
    cases i with
    | zero => simp [runningMax, maxUpTo]
    | succ j =>
      have hj : j < t.length := by simpa using Nat.lt_of_succ_lt_succ hi
      rw [runningMax, List.getD_cons_succ, runMaxFrom_getD t x j hj, maxUpTo_cons x t j hj]

theorem pricesList_getD (s : List ℚ) (i : ℕ) (hi : i < s.length) :
    (pricesList s).getD i 0 = price_spec s i := by
  have hlen : i < (s.map (fun r => 1 + r)).length := by simpa using hi
  rw [pricesList, cumprodFrom_getD _ 1 i hlen, one_mul, price_spec]
  rw [← List.map_take]

theorem runmax_spec_eq (s : List ℚ) : ∀ i : ℕ, i < s.length →
    runmax_spec s i = maxUpTo (pricesList s) i := by
  intro i
  induction i with
  | zero =>
    intro hi
    rw [runmax_spec, maxUpTo, pricesList_getD s 0 hi]
  | succ j ih =>
    intro hj1
    have hj : j < s.length := Nat.lt_of_succ_lt hj1
    rw [runmax_spec, maxUpTo, ih hj, pricesList_getD s (j + 1) hj1]

theorem zipWith_getD (f : ℚ → ℚ → ℚ) (as : List ℚ) : ∀ (bs : List ℚ) (i : ℕ),
    i < as.length → i < bs.length →
    (List.zipWith f as bs).getD i 0 = f (as.getD i 0) (bs.getD i 0) := by
  induction as with
  | nil => intro bs i hi _; simp at hi
  | cons a t ih =>
    intro bs i hia hib
    cases bs with
    | nil => simp at hib
    | cons b u =>
      cases i with
      | zero => rfl
      | succ j =>
        rw [List.zipWith_cons_cons, List.getD_cons_succ, List.getD_cons_succ,
          List.getD_cons_succ]
        exact ih u j (Nat.lt_of_succ_lt_succ hia) (Nat.lt_of_succ_lt_succ hib)

/-! ## Helper lemmas about means, squares and the CDF approximation -/

theorem listMean_le_of_forall_le (l : List ℚ) (v : ℚ) (hne : l ≠ [])
    (h : ∀ x ∈ l, x ≤ v) : listMean l ≤ v := by
  have hlen : 0 < l.length := List.length_pos.mpr hne
  have hlenq : (0:ℚ) < (l.length : ℚ) := by exact_mod_cast hlen
  have hsum : l.sum ≤ l.length • v := List.sum_le_card_nsmul l v h
  rw [listMean, div_le_iff₀ hlenq]
  calc l.sum ≤ l.length • v := hsum
    _ = v * l.length := by rw [nsmul_eq_mul]; ring

theorem sum_sq_nonneg (l : List ℚ) : 0 ≤ (l.map (fun d => d^2)).sum := by
  apply List.sum_nonneg
  intro x hx
  rcases List.mem_map.mp hx with ⟨d, _, rfl⟩
  positivity

theorem sum_sq_eq_zero_iff (l : List ℚ) :
    (l.map (fun d => d^2)).sum = 0 ↔ ∀ d ∈ l, d = 0 := by
  induction l with
  | nil => simp
  | cons x t ih =>
    simp only [List.map_cons, List.sum_cons, List.mem_cons]
    constructor
    · intro h
      have h1 : (0:ℚ) ≤ x^2 := sq_nonneg x
      have h2 : (0:ℚ) ≤ (t.map (fun d => d^2)).sum := sum_sq_nonneg t
      have hx2 : x^2 = 0 := by linarith
      have ht : (t.map (fun d => d^2)).sum = 0 := by linarith
      intro d hd
      rcases hd with rfl | hd
      · exact sq_eq_zero_iff.mp hx2
      · exact ih.mp ht d hd
    · intro hall
      have hx : x = 0 := hall x (Or.inl rfl)
      have ht : (t.map (fun d => d^2)).sum = 0 := ih.mpr (fun d hd => hall d (Or.inr hd))
      rw [hx, ht]
      norm_num

theorem sumSqDev_nonneg (s : List ℚ) : 0 ≤ sumSqDev s := by
  apply List.sum_nonneg
  intro x hx
  rcases List.mem_map.mp hx with ⟨d, _, rfl⟩
  positivity

theorem listMean_replicate {n : ℕ} (hn : n ≠ 0) (r : ℚ) :
    listMean (List.replicate n r) = r := by
  rw [listMean, List.sum_replicate, List.length_replicate, nsmul_eq_mul]
  exact mul_div_cancel_left₀ r (Nat.cast_ne_zero.mpr hn)

theorem sumSqDev_replicate {n : ℕ} (hn : n ≠ 0) (r : ℚ) :
    sumSqDev (List.replicate n r) = 0 := by
  rw [sumSqDev, List.map_replicate, listMean_replicate hn r]
  simp

theorem norm_cdf_simple_lt {y x : ℝ} (hy : 0 ≤ y) (hxy : y < x) :
    norm_cdf_simple y < norm_cdf_simple x := by
  have hx : 0 < x := lt_of_le_of_lt hy hxy
  have hπ : 0 < Real.pi := Real.pi_pos
  have hargx : -2 * x^2 / Real.pi < 0 := div_neg_of_neg_of_pos (by nlinarith) hπ
  have hex1 : Real.exp (-2 * x^2 / Real.pi) < 1 := by
    have h := Real.exp_lt_exp.mpr hargx
    rwa [Real.exp_zero] at h
  have hsx : 0 < Real.sqrt (1 - Real.exp (-2 * x^2 / Real.pi)) :=
    Real.sqrt_pos.mpr (by linarith)
  rcases eq_or_lt_of_le hy with heq | hypos
  · rw [norm_cdf_simple, norm_cdf_simple, np_sign, np_sign, if_pos hx, ← heq]
    rw [if_neg (lt_irrefl 0), if_neg (lt_irrefl 0)]
    nlinarith
  · have hyx2 : y^2 < x^2 := by nlinarith
    have harg : -2 * x^2 / Real.pi < -2 * y^2 / Real.pi :=
      (div_lt_div_iff_of_pos_right hπ).mpr (by nlinarith)
    have hexlt : Real.exp (-2 * x^2 / Real.pi) < Real.exp (-2 * y^2 / Real.pi) :=
      Real.exp_lt_exp.mpr harg
    have hey1 : Real.exp (-2 * y^2 / Real.pi) ≤ 1 :=
      Real.exp_le_one_iff.mpr (div_nonpos_of_nonpos_of_nonneg (by nlinarith) hπ.le)
    have h0 : 0 ≤ 1 - Real.exp (-2 * y^2 / Real.pi) := by linarith
    have hs := Real.sqrt_lt_sqrt h0
      (by linarith : 1 - Real.exp (-2 * y^2 / Real.pi) < 1 - Real.exp (-2 * x^2 / Real.pi))
    rw [norm_cdf_simple, norm_cdf_simple, np_sign, np_sign, if_pos hx, if_pos hypos]
    nlinarith

/-! ## Claims -/

/-- Claim C1: the spec says the PSR standard error uses the sample excess
kurtosis directly, `sigma_sr = sqrt((1 + 0.5·sr² − skew·sr + (kurt/4)·sr²)/(n−1))`.
The script instead computes `((kurt − 3)/4)·sr²`, subtracting 3 from a value
that is already an excess kurtosis.  At `sr = 1`, `skew = 0`, excess kurtosis
`0`, `n = 5`, the code yields `sqrt(3/16)` while the specified formula yields
`sqrt(3/8)` — the two disagree. -/
theorem claim_C1_sigma_sr_kurtosis :
    sigma_sr 1 0 0 5 = Real.sqrt (3/16) ∧ sigma_sr_claim 1 0 0 5 = Real.sqrt (3/8) ∧
      sigma_sr 1 0 0 5 < sigma_sr_claim 1 0 0 5 := by
  have h1 : sigma_sr 1 0 0 5 = Real.sqrt (3/16) := by
    rw [sigma_sr]
    norm_num [psrQ]
  have h2 : sigma_sr_claim 1 0 0 5 = Real.sqrt (3/8) := by
    rw [sigma_sr_claim]
    norm_num
  refine ⟨h1, h2, ?_⟩
  rw [h1, h2]
  exact Real.sqrt_lt_sqrt (by norm_num) (by norm_num)

/-- Claim C2: for a constant return series of length at least 2 the sample
standard deviation is 0; but `sharpe_simple` raises no `DegenerateInputError`
— it divides by the zero standard deviation silently and produces a plain
(meaningless) number, `0` in the total-division embedding (`inf`/`NaN` under
numpy). -/
theorem claim_C2_constant_series (n : ℕ) (r : ℚ) (hn : 2 ≤ n) (hr : r ≠ 0) :
    np_std 1 (List.replicate n r) = 0 ∧ sharpe_simple (List.replicate n r) = 0 := by
  have hn0 : n ≠ 0 := by omega
  have hstd : np_std 1 (List.replicate n r) = 0 := by
    rw [np_std, sumSqDev_replicate hn0 r]
    simp
  exact ⟨hstd, by rw [sharpe_simple, hstd, div_zero, zero_mul]⟩

theorem claim_C2_witness :
    (2 ≤ 3 ∧ (1/100 : ℚ) ≠ 0) ∧
      np_std 1 (List.replicate 3 (1/100)) = 0 ∧
      sharpe_simple (List.replicate 3 (1/100)) = 0 :=
  ⟨⟨by norm_num, by norm_num⟩, claim_C2_constant_series 3 (1/100) (by norm_num) (by norm_num)⟩

/-- Claim C3 (counterexample): the scripts do not agree on the CVaR boundary.
On the series `[-3, -2, -2, 0, 1]` at confidence `3/4`, the VaR threshold is
`-2`; `manual_cvar` of `debug_python_direct.py` (strict `<`) averages only
`[-3]` giving `-3`, while the mean of the values less than or equal to VaR
(the claimed inclusive boundary) is `-7/3`. -/
theorem claim_C3_counterexample :
    manual_cvar [-3, -2, -2, 0, 1] (3/4) = -3 ∧
      cvar_spec [-3, -2, -2, 0, 1] (3/4) = -7/3 ∧
      manual_cvar [-3, -2, -2, 0, 1] (3/4) ≠ cvar_spec [-3, -2, -2, 0, 1] (3/4) := by
  have h1 : manual_cvar [-3, -2, -2, 0, 1] (3/4) = -3 := by
    norm_num [manual_cvar, value_at_risk, quantile, sortList, insertSorted, listMean,
      List.filter]
  have h2 : cvar_spec [-3, -2, -2, 0, 1] (3/4) = -7/3 := by
    norm_num [cvar_spec, quantile, sortList, insertSorted, listMean, List.filter]
  refine ⟨h1, h2, ?_⟩
  rw [h1, h2]
  norm_num

/-- Claim C3 (amended): `cvar_quantile` of `verify_python_serenity.py` computes
the mean of all values less than or equal to the `(1-c)`-quantile VaR
(inclusive boundary), as the claim states; the `manual_cvar` variant of
`debug_python_direct.py` instead uses the strict `<` boundary, so the two
differ whenever a value equals VaR exactly. -/
theorem claim_C3_cvar_boundary (s : List ℚ) (c : ℚ) (hc0 : 0 < c) (hc1 : c < 1) :
    cvar_quantile s c = cvar_spec s c ∧
      manual_cvar s c = listMean (s.filter (fun x => x < quantile s (1 - c))) :=
  ⟨rfl, rfl⟩

theorem claim_C3_witness :
    ((0:ℚ) < 1/2 ∧ (1/2:ℚ) < 1) ∧
      (cvar_quantile [-1, 0] (1/2) = cvar_spec [-1, 0] (1/2) ∧
        manual_cvar [-1, 0] (1/2) =
          listMean (([-1, 0] : List ℚ).filter (fun x => x < quantile [-1, 0] (1 - 1/2)))) :=
  ⟨⟨by norm_num, by norm_num⟩, claim_C3_cvar_boundary [-1, 0] (1/2) (by norm_num) (by norm_num)⟩

/-- Claim C4 (counterexample): PSR is not monotonically increasing in the
Sharpe ratio with skew, excess kurtosis and `n` held fixed.  With `skew = 2`,
excess kurtosis `3` and `n = 5`, both sigma radicands are positive, yet the
PSR at `sr = 5` is strictly below the PSR at `sr = 4` (the `−skew·sr` term in
the radicand makes `sr/sigma_sr(sr)` decrease once `skew·sr > 2`). -/
theorem claim_C4_counterexample :
    0 < psrQ 4 2 3 ∧ 0 < psrQ 5 2 3 ∧ psr_fixed 2 3 5 5 < psr_fixed 2 3 5 4 := by
  refine ⟨by norm_num [psrQ], by norm_num [psrQ], ?_⟩
  have hQ4 : psrQ 4 2 3 = 1 := by norm_num [psrQ]
  have hQ5 : psrQ 5 2 3 = 7/2 := by norm_num [psrQ]
  have hσ4 : sigma_sr 4 2 3 5 = 1/2 := by
    rw [sigma_sr, hQ4]
    rw [show ((1:ℝ) / (((5:ℕ) : ℝ) - 1)) = (1/2)^2 by norm_num]
    exact Real.sqrt_sq (by norm_num)
  have hσ5 : sigma_sr 5 2 3 5 = Real.sqrt (7/8) := by
    rw [sigma_sr, hQ5]
    norm_num
  have hs5pos : 0 < Real.sqrt ((7:ℝ)/8) := Real.sqrt_pos.mpr (by norm_num)
  have hz5lt : (5:ℝ) / Real.sqrt (7/8) < 8 := by
    rw [div_lt_iff₀ hs5pos]
    nlinarith [Real.sq_sqrt (show (0:ℝ) ≤ 7/8 by norm_num), Real.sqrt_nonneg ((7:ℝ)/8)]
  have hz5nn : (0:ℝ) ≤ 5 / Real.sqrt (7/8) := by positivity
  have h5 : psr_fixed 2 3 5 5 = norm_cdf_simple (5 / Real.sqrt (7/8)) := by
    rw [psr_fixed, hσ5]
  have h4 : psr_fixed 2 3 5 4 = norm_cdf_simple 8 := by
    rw [psr_fixed, hσ4]
    norm_num
  rw [h5, h4]
  exact norm_cdf_simple_lt hz5nn hz5lt

/-- Claim C4 (amended): with skew, excess kurtosis and `n ≥ 2` held fixed,
PSR = Φ(sr / sigma_sr(sr)) is strictly increasing on nonnegative Sharpe
values as long as the sigma radicand stays positive and `skew·sr < 2`; the
unrestricted monotonicity stated by the claim fails (see the counterexample). -/
theorem claim_C4_psr_monotone_conditional (skew kurt : ℝ) (n : ℕ) (sr₁ sr₂ : ℝ)
    (hn : 2 ≤ n) (h1 : 0 ≤ sr₁) (h12 : sr₁ < sr₂) (hskew : skew * sr₂ < 2)
    (hQ1 : 0 < psrQ sr₁ skew kurt) (hQ2 : 0 < psrQ sr₂ skew kurt) :
    psr_fixed skew kurt n sr₁ < psr_fixed skew kurt n sr₂ := by
  have hd : (0:ℝ) < (n:ℝ) - 1 := by
    have h2n : (2:ℝ) ≤ (n:ℝ) := by exact_mod_cast hn
    linarith
  have hrad1 : 0 < psrQ sr₁ skew kurt / ((n:ℝ) - 1) := div_pos hQ1 hd
  have hrad2 : 0 < psrQ sr₂ skew kurt / ((n:ℝ) - 1) := div_pos hQ2 hd
  have hσ1 : 0 < sigma_sr sr₁ skew kurt n := Real.sqrt_pos.mpr hrad1
  have hσ2 : 0 < sigma_sr sr₂ skew kurt n := Real.sqrt_pos.mpr hrad2
  have h2pos : 0 < sr₂ := lt_of_le_of_lt h1 h12
  have hkey : skew * sr₁ * sr₂ < sr₁ + sr₂ := by
    have h2a : sr₁ * (skew * sr₂) ≤ sr₁ * 2 := mul_le_mul_of_nonneg_left hskew.le h1
    nlinarith
  have hid : sr₂^2 * psrQ sr₁ skew kurt - sr₁^2 * psrQ sr₂ skew kurt
      = (sr₂ - sr₁) * ((sr₁ + sr₂) - skew * sr₁ * sr₂) := by
    simp only [psrQ]
    ring
  have hpp : 0 < (sr₂ - sr₁) * ((sr₁ + sr₂) - skew * sr₁ * sr₂) :=
    mul_pos (by linarith) (by linarith)
  have hQkey : sr₁^2 * psrQ sr₂ skew kurt < sr₂^2 * psrQ sr₁ skew kurt := by linarith
  have hsq : (sr₁ * sigma_sr sr₂ skew kurt n)^2 < (sr₂ * sigma_sr sr₁ skew kurt n)^2 := by
    have e1 : (sigma_sr sr₁ skew kurt n)^2 = psrQ sr₁ skew kurt / ((n:ℝ) - 1) :=
      Real.sq_sqrt hrad1.le
    have e2 : (sigma_sr sr₂ skew kurt n)^2 = psrQ sr₂ skew kurt / ((n:ℝ) - 1) :=
      Real.sq_sqrt hrad2.le
    rw [mul_pow, mul_pow, e1, e2, ← mul_div_assoc, ← mul_div_assoc]
    exact (div_lt_div_iff_of_pos_right hd).mpr hQkey
  have hmul : sr₁ * sigma_sr sr₂ skew kurt n < sr₂ * sigma_sr sr₁ skew kurt n := by
    have hA : 0 ≤ sr₁ * sigma_sr sr₂ skew kurt n := mul_nonneg h1 hσ2.le
    have hB : 0 ≤ sr₂ * sigma_sr sr₁ skew kurt n := mul_nonneg h2pos.le hσ1.le
    by_contra hcon
    push_neg at hcon
    have hle := pow_le_pow_left₀ hB hcon 2
    linarith
  have hz : sr₁ / sigma_sr sr₁ skew kurt n < sr₂ / sigma_sr sr₂ skew kurt n := by
    rw [div_lt_div_iff₀ hσ1 hσ2]
    linarith
  have hz0 : 0 ≤ sr₁ / sigma_sr sr₁ skew kurt n := div_nonneg h1 hσ1.le
  exact norm_cdf_simple_lt hz0 hz

theorem claim_C4_witness :
    (2 ≤ 2 ∧ (0:ℝ) ≤ 0 ∧ (0:ℝ) < 1 ∧ (0:ℝ) * 1 < 2 ∧ 0 < psrQ 0 0 3 ∧ 0 < psrQ 1 0 3) ∧
      psr_fixed 0 3 2 0 < psr_fixed 0 3 2 1 :=
  ⟨⟨le_refl 2, le_refl 0, by norm_num, by norm_num, by norm_num [psrQ], by norm_num [psrQ]⟩,
    claim_C4_psr_monotone_conditional 0 3 2 0 1 (le_refl 2) (le_refl 0) (by norm_num)
      (by norm_num) (by norm_num [psrQ]) (by norm_num [psrQ])⟩

/-- Claim C5: for a return series with every return > −1 the drawdown series
has the same length as the input, each entry equals
`price_i / running_max_i − 1` with `price` the cumulative product of `(1+r)`
and `running_max` the running maximum of prices up to and including `i`, and
every drawdown value is ≤ 0. -/
theorem claim_C5_drawdown (rs : List ℚ) (h : ∀ r ∈ rs, -1 < r) :
    (to_drawdown_series rs).length = rs.length ∧
      (∀ i, i < rs.length →
        (to_drawdown_series rs).getD i 0 = price_spec rs i / runmax_spec rs i - 1) ∧
      (∀ d ∈ to_drawdown_series rs, d ≤ 0) := by
  have hpos : ∀ p ∈ pricesList rs, 0 < p := by
    apply cumprodFrom_pos _ 1 one_pos
    intro x hx
    rcases List.mem_map.mp hx with ⟨r, hr, rfl⟩
    have := h r hr
    linarith
  refine ⟨to_drawdown_series_length rs, ?_, ?_⟩
  · intro i hi
    have hip : i < (pricesList rs).length := by rw [pricesList_length]; exact hi
    have him : i < (runningMax (pricesList rs)).length := by
      rw [runningMax_length, pricesList_length]; exact hi
    rw [to_drawdown_series, zipWith_getD _ _ _ i hip him, pricesList_getD rs i hi,
      runningMax_getD (pricesList rs) i hip, runmax_spec_eq rs i hi]
  · rw [to_drawdown_series]
    cases hps : pricesList rs with
    | nil => simp
    | cons p pt =>
      have hp : 0 < p := hpos p (by rw [hps]; simp)
      rw [runningMax]
      intro d hd
      rw [List.zipWith_cons_cons] at hd
      rcases List.mem_cons.mp hd with rfl | hmem
      · rw [div_self (ne_of_gt hp)]
        norm_num
      · exact zip_dd_nonpos pt p hp
          (fun q hq => hpos q (by rw [hps]; simp [hq])) d hmem

theorem claim_C5_witness :
    (∀ r ∈ ([1/2, -1/4] : List ℚ), -1 < r) ∧
      ((to_drawdown_series [1/2, -1/4]).length = ([1/2, -1/4] : List ℚ).length ∧
        (∀ i, i < ([1/2, -1/4] : List ℚ).length →
          (to_drawdown_series [1/2, -1/4]).getD i 0 =
            price_spec [1/2, -1/4] i / runmax_spec [1/2, -1/4] i - 1) ∧
        (∀ d ∈ to_drawdown_series [1/2, -1/4], d ≤ 0)) :=
  ⟨by norm_num [List.forall_mem_cons],
    claim_C5_drawdown [1/2, -1/4] (by norm_num [List.forall_mem_cons])⟩

/-- Claim C6: for a return series with nonzero sample standard deviation and a
well-defined CVaR of its drawdown series, the Serenity index of
`verify_python_serenity.py` equals `sum(returns) / (ulcer_index · pitfall)`
with `pitfall = −CVaR(drawdowns, confidence) / sample_std(returns)` and the
total return taken as the simple (non-compounded) sum. -/
theorem claim_C6_serenity (rs : List ℚ) (c : ℚ)
    (hstd : np_std 1 rs ≠ 0)
    (hcvar : (to_drawdown_series rs).filter
      (fun x => x ≤ quantile (to_drawdown_series rs) (1 - c)) ≠ []) :
    serenity rs c = serenity_spec rs c := by
  have hc : cvar_quantile (to_drawdown_series rs) c = cvar_spec (to_drawdown_series rs) c :=
    rfl
  rw [serenity, serenity_spec, pitfall, sub_zero, hc, np_std, Nat.cast_one]

theorem claim_C6_witness :
    (np_std 1 [1/10, -1/10] ≠ 0 ∧
      (to_drawdown_series [1/10, -1/10]).filter
        (fun x => x ≤ quantile (to_drawdown_series [1/10, -1/10]) (1 - 19/20)) ≠ []) ∧
      serenity [1/10, -1/10] (19/20) = serenity_spec [1/10, -1/10] (19/20) := by
  have hS : sumSqDev [1/10, -1/10] = 1/50 := by
    norm_num [sumSqDev, listMean]
  have h1 : np_std 1 [1/10, -1/10] ≠ 0 := by
    rw [np_std, hS]
    refine ne_of_gt (Real.sqrt_pos.mpr ?_)
    norm_num
  have h2 : (to_drawdown_series [1/10, -1/10]).filter
      (fun x => x ≤ quantile (to_drawdown_series [1/10, -1/10]) (1 - 19/20)) ≠ [] := by
    norm_num [to_drawdown_series, pricesList, cumprodFrom, runningMax, runMaxFrom,
      quantile, sortList, insertSorted, List.filter]
  exact ⟨⟨h1, h2⟩, claim_C6_serenity [1/10, -1/10] (19/20) h1 h2⟩

/-- Claim C7: for a series of length at least 2 with nonzero sample standard
deviation, `sharpe_simple` equals the mean divided by the Bessel-corrected
sample standard deviation `sqrt(Σ(x−mean)²/(n−1))` times `sqrt(252)`; and the
Bessel-corrected standard deviation differs from the population-`n` one, so
the code is pinned to the `n−1` divisor. -/
theorem claim_C7_sharpe (rs : List ℚ) (hn : 2 ≤ rs.length) (hstd : np_std 1 rs ≠ 0) :
    sharpe_simple rs = sharpe_spec rs 252 ∧ np_std 1 rs ≠ np_std 0 rs := by
  have hcast : ((1:ℕ) : ℝ) = 1 := Nat.cast_one
  have heq : sharpe_simple rs = sharpe_spec rs 252 := by
    rw [sharpe_simple, sharpe_spec, np_std, hcast]
  refine ⟨heq, ?_⟩
  have hn2 : (2:ℝ) ≤ (rs.length : ℝ) := by exact_mod_cast hn
  have hd1 : (0:ℝ) < (rs.length : ℝ) - 1 := by linarith
  have hS0 : (0:ℝ) ≤ (sumSqDev rs : ℝ) := by exact_mod_cast sumSqDev_nonneg rs
  have hrad : 0 < (sumSqDev rs : ℝ) / ((rs.length : ℝ) - 1) := by
    rcases lt_or_eq_of_le hS0 with hpos | hzero
    · exact div_pos hpos hd1
    · exfalso
      apply hstd
      rw [np_std, hcast, ← hzero]
      simp
  have hSpos : 0 < (sumSqDev rs : ℝ) := by
    have hm := mul_pos hrad hd1
    rwa [div_mul_cancel₀ _ (ne_of_gt hd1)] at hm
  have hlt : (sumSqDev rs : ℝ) / (rs.length : ℝ) < (sumSqDev rs : ℝ) / ((rs.length : ℝ) - 1) :=
    div_lt_div_of_pos_left hSpos hd1 (by linarith)
  have hstdlt : np_std 0 rs < np_std 1 rs := by
    rw [np_std, np_std, hcast, Nat.cast_zero, sub_zero]
    exact Real.sqrt_lt_sqrt (div_nonneg hS0 (by positivity)) hlt
  exact hstdlt.ne'

theorem claim_C7_witness :
    (2 ≤ ([0, 1/10] : List ℚ).length ∧ np_std 1 [0, 1/10] ≠ 0) ∧
      (sharpe_simple [0, 1/10] = sharpe_spec [0, 1/10] 252 ∧
        np_std 1 [0, 1/10] ≠ np_std 0 [0, 1/10]) := by
  have hS : sumSqDev [0, 1/10] = 1/200 := by
    norm_num [sumSqDev, listMean]
  have h1 : np_std 1 [0, 1/10] ≠ 0 := by
    rw [np_std, hS]
    refine ne_of_gt (Real.sqrt_pos.mpr ?_)
    norm_num
  exact ⟨⟨by norm_num, h1⟩, claim_C7_sharpe [0, 1/10] (by norm_num) h1⟩

/-- Claim C8: for a return series with every return > −1, the Ulcer index is
`sqrt(mean(drawdown²))` over the full drawdown series — it is nonnegative,
and it vanishes exactly when the drawdown is 0 at every point. -/
theorem claim_C8_ulcer (rs : List ℚ) (h : ∀ r ∈ rs, -1 < r) :
    0 ≤ ulcer_index rs ∧
      (ulcer_index rs = 0 ↔ ∀ d ∈ to_drawdown_series rs, d = 0) := by
  refine ⟨Real.sqrt_nonneg _, ?_⟩
  rw [ulcer_index, Real.sqrt_eq_zero']
  have hM0 : 0 ≤ listMean ((to_drawdown_series rs).map (fun d => d^2)) := by
    rw [listMean]
    exact div_nonneg (sum_sq_nonneg _) (by positivity)
  constructor
  · intro hle
    have hM : listMean ((to_drawdown_series rs).map (fun d => d^2)) = 0 :=
      le_antisymm (by exact_mod_cast hle) hM0
    rcases eq_or_ne (to_drawdown_series rs) [] with hnil | hne
    · intro d hd
      rw [hnil] at hd
      simp at hd
    · have hlen : (0:ℚ) < ((to_drawdown_series rs).length : ℚ) := by
        exact_mod_cast List.length_pos.mpr hne
      rw [listMean] at hM
      have hsum : ((to_drawdown_series rs).map (fun d => d^2)).sum = 0 := by
        rcases div_eq_zero_iff.mp hM with h0 | h0
        · exact h0
        · exfalso
          rw [List.length_map] at h0
          exact (ne_of_gt hlen) h0
      exact (sum_sq_eq_zero_iff _).mp hsum
  · intro hall
    have hsum : ((to_drawdown_series rs).map (fun d => d^2)).sum = 0 :=
      (sum_sq_eq_zero_iff _).mpr hall
    rw [listMean, hsum, zero_div]
    norm_num

theorem claim_C8_witness :
    (∀ r ∈ ([1/10] : List ℚ), -1 < r) ∧
      (0 ≤ ulcer_index [1/10] ∧
        (ulcer_index [1/10] = 0 ↔ ∀ d ∈ to_drawdown_series [1/10], d = 0)) :=
  ⟨by norm_num [List.forall_mem_cons],
    claim_C8_ulcer [1/10] (by norm_num [List.forall_mem_cons])⟩

/-- Claim C9: for any series and confidence level in (0,1), whenever at least
one value lies at or below the VaR threshold (the `(1−c)`-quantile), the CVaR
computed by `cvar_quantile` is at most VaR: it averages only values that are
each ≤ VaR. -/
theorem claim_C9_cvar_le_var (s : List ℚ) (c : ℚ) (hc0 : 0 < c) (hc1 : c < 1)
    (hne : s.filter (fun x => x ≤ quantile s (1 - c)) ≠ []) :
    cvar_quantile s c ≤ quantile s (1 - c) := by
  show listMean (s.filter (fun x => x ≤ quantile s (1 - c))) ≤ quantile s (1 - c)
  apply listMean_le_of_forall_le _ _ hne
  intro x hx
  exact of_decide_eq_true (List.mem_filter.mp hx).2

theorem claim_C9_witness :
    ((0:ℚ) < 1/2 ∧ (1/2:ℚ) < 1 ∧
      ([-1, 0] : List ℚ).filter (fun x => x ≤ quantile [-1, 0] (1 - 1/2)) ≠ []) ∧
      cvar_quantile [-1, 0] (1/2) ≤ quantile [-1, 0] (1 - 1/2) := by
  have hne : ([-1, 0] : List ℚ).filter (fun x => x ≤ quantile [-1, 0] (1 - 1/2)) ≠ [] := by
    norm_num [quantile, sortList, insertSorted, List.filter]
  exact ⟨⟨by norm_num, by norm_num, hne⟩,
    claim_C9_cvar_le_var [-1, 0] (1/2) (by norm_num) (by norm_num) hne⟩

/-- Claim C10: for a non-empty series whose first return satisfies
`1 + r₀ ≠ 0`, the first drawdown is exactly 0 — even for a negative first
return — because `expanding().max()` starts at the first price itself; no
initial peak of 1 precedes the series. -/
theorem claim_C10_first_drawdown_zero (r : ℚ) (t : List ℚ) (h : 1 + r ≠ 0) :
    (to_drawdown_series (r :: t)).head? = some 0 := by
  simp [to_drawdown_series, pricesList, cumprodFrom, runningMax, div_self h]

theorem claim_C10_witness :
    (1 + (-1/2 : ℚ) ≠ 0) ∧ (to_drawdown_series ((-1/2) :: [1/10])).head? = some 0 :=
  ⟨by norm_num, claim_C10_first_drawdown_zero (-1/2) [1/10] (by norm_num)⟩
